import Mathlib

/-!
Verification of the hackwave2.0 requirement-refinement system against its
natural-language specification.

Strings are embedded as `List Char`.  Functions taken from the TypeScript
sources (`extractFinalAnswerText`, `isDuplicateContent`, the SSE read loop)
are translated operation by operation; components of the backend that are
documented but whose code is not part of the frontend tree (classifier,
finalizer, memory store, orchestrator) are modelled from the specification,
as marked in their doc comments.
-/

/-! ### Character and string utilities -/

/-- ASCII whitespace, the model of the JavaScript `\s` class and of the
characters removed by `String.prototype.trim` (Unicode-only whitespace
code points are not modelled). -/
def isWs (c : Char) : Bool :=
  c = ' ' || c = '\t' || c = '\n' || c = '\r' || c = Char.ofNat 11 || c = Char.ofNat 12

/-- ASCII lower-casing of one character, the model of
`String.prototype.toLowerCase` on the ASCII range. -/
def toLowerChar (c : Char) : Char :=
  if 'A' ≤ c ∧ c ≤ 'Z' then Char.ofNat (c.toNat + 32) else c

/-- Lower-casing of a whole string. -/
def toLowerStr (s : List Char) : List Char :=
  s.map toLowerChar

/-- Splits a string at the first occurrence of `tok`: returns
`some (before, after)` with the token removed, or `none` when `tok` does
not occur. -/
def splitFirst (tok : List Char) : List Char → Option (List Char × List Char)
  | [] => if tok.isPrefixOf ([] : List Char) then some ([], []) else none
  | c :: rest =>
    if tok.isPrefixOf (c :: rest) then some ([], (c :: rest).drop tok.length)
    else (splitFirst tok rest).map (fun p => (c :: p.1, p.2))

/-- Substring test, the model of `String.prototype.includes`. -/
def containsSub (tok s : List Char) : Bool :=
  (splitFirst tok s).isSome

/-- The model of `String.prototype.trim` (ASCII whitespace only). -/
def trimChars (s : List Char) : List Char :=
  ((s.dropWhile isWs).reverse.dropWhile isWs).reverse

theorem splitFirst_eq_append {tok s b a : List Char}
    (h : splitFirst tok s = some (b, a)) : s = b ++ tok ++ a := by
  induction s generalizing b a with
  | nil =>
    unfold splitFirst at h
    by_cases hp : tok.isPrefixOf ([] : List Char)
    · rw [if_pos hp] at h
      have htok : tok = [] := List.prefix_nil.mp (List.isPrefixOf_iff_prefix.mp hp)
      cases h
      simp [htok]
    · rw [if_neg hp] at h
      cases h
  | cons c rest ih =>
    unfold splitFirst at h
    by_cases hp : tok.isPrefixOf (c :: rest)
    · rw [if_pos hp] at h
      obtain ⟨t, ht⟩ := List.isPrefixOf_iff_prefix.mp hp
      cases h
      rw [← ht, List.drop_left]
      simp
    · rw [if_neg hp] at h
      cases hsp : splitFirst tok rest with
      | none => rw [hsp] at h; cases h
      | some p =>
        rw [hsp, Option.map_some'] at h
        cases h
        have := ih (b := p.1) (a := p.2) (by rw [hsp])
        simp [this]

theorem splitFirst_isSome_of_prefixAt {tok s : List Char} (hne : tok ≠ [])
    (h : ∃ b a, s = b ++ tok ++ a) : (splitFirst tok s).isSome := by
  obtain ⟨b, a, rfl⟩ := h
  induction b with
  | nil =>
    have hp : tok.isPrefixOf (tok ++ a) := List.isPrefixOf_iff_prefix.mpr ⟨a, rfl⟩
    cases htok : tok ++ a with
    | nil =>
      exact absurd (List.append_eq_nil.mp htok).1 hne
    | cons c r =>
      rw [List.nil_append, htok]
      unfold splitFirst
      rw [if_pos (htok ▸ hp)]
      simp
  | cons c b ih =>
    rw [List.cons_append, List.cons_append]
    unfold splitFirst
    by_cases hp : tok.isPrefixOf (c :: (b ++ tok ++ a))
    · rw [if_pos hp]; simp
    · rw [if_neg hp]
      simp only [List.cons_append] at ih
      cases hsp : splitFirst tok (b ++ tok ++ a) with
      | none => rw [hsp] at ih; simp at ih
      | some p => simp

/-! ### Claim C1 — `extractFinalAnswerText` (frontend/src/lib/utils.ts) -/

/-- The literal the code scans for: `**Final Answer:**` (with bold
markers). -/
def boldTok : List Char := "**Final Answer:**".toList

/-- The literal named by the specification: `Final Answer:` (no bold
markers). -/
def plainTok : List Char := "Final Answer:".toList

/-- The stop pattern of the extraction regex's lookahead `(?=\n\n\*\*|$)`:
a blank line followed by two asterisks. -/
def stopTok : List Char := "\n\n**".toList

/-- Lazy body of the regex `([\s\S]*?)(?=\n\n\*\*|$)`: take characters
until the remaining suffix starts with `stopTok`, or to the end. -/
def lazyTakeStop : List Char → List Char
  | [] => []
  | c :: rest =>
    if stopTok.isPrefixOf (c :: rest) then [] else c :: lazyTakeStop rest

/-- Translation of `extractFinalAnswerText` (frontend/src/lib/utils.ts,
lines 9–20).  The code first tests
`messageContent.includes('**Final Answer:**')` and then matches
`/\*\*Final Answer:\*\*\s*([\s\S]*?)(?=\n\n\*\*|$)/`, returning the
trimmed first capture group; when the bold token is absent (so the
`includes` guard or the match fails) the full content is returned.  The
regex semantics at the first token occurrence are: the greedy `\s*`
consumes the maximal whitespace run, then the lazy group runs to the
first `\n\n**` or to the end of the string. -/
def extractFinalAnswerText (messageContent : List Char) : List Char :=
  match splitFirst boldTok messageContent with
  | some p => trimChars (lazyTakeStop (p.2.dropWhile isWs))
  | none => messageContent

/-- Segment extraction exactly as claim C1 words it: the part following
the literal token `Final Answer:` up to the next bold header `**...**`
on a new line (modelled as the next newline immediately followed by
`**`) or to the end of the string. -/
def claimSegmentPlain (s : List Char) : List Char :=
  match splitFirst plainTok s with
  | some p =>
    match splitFirst ("\n**".toList) p.2 with
    | some q => q.1
    | none => p.2
  | none => s

/-- The behaviour the code actually implements, written from the amended
claim: when `**Final Answer:**` occurs, the result is the segment after
the first occurrence — with the maximal following whitespace run
skipped — up to the first blank line followed by `**` or to the end of
the string, trimmed of surrounding whitespace; otherwise the full input
is returned unchanged. -/
def specBoldSegment (s : List Char) : List Char :=
  match splitFirst boldTok s with
  | none => s
  | some p =>
    let body := p.2.dropWhile isWs
    trimChars (match splitFirst stopTok body with
      | some q => q.1
      | none => body)

theorem lazyTakeStop_eq_splitFirst (l : List Char) :
    lazyTakeStop l = (match splitFirst stopTok l with
      | some q => q.1
      | none => l) := by
  induction l with
  | nil => simp [lazyTakeStop, splitFirst, stopTok, List.isPrefixOf]
  | cons c rest ih =>
    unfold lazyTakeStop splitFirst
    by_cases hp : stopTok.isPrefixOf (c :: rest)
    · rw [if_pos hp, if_pos hp]
    · rw [if_neg hp, if_neg hp]
      cases hsp : splitFirst stopTok rest with
      | none => rw [hsp] at ih; simp [ih]
      | some p => rw [hsp] at ih; simp [ih]

/-- Claim C1, counterexample.  On the input `Final Answer: 42` the
literal token `Final Answer:` is present, yet `extractFinalAnswerText`
returns the whole input unchanged — not the segment following the token
— because the code's guard and regex require the bold form
`**Final Answer:**`. -/
theorem claim_C1_cex :
    containsSub plainTok ("Final Answer: 42".toList) = true ∧
    extractFinalAnswerText ("Final Answer: 42".toList) = "Final Answer: 42".toList ∧
    extractFinalAnswerText ("Final Answer: 42".toList) ≠
      claimSegmentPlain ("Final Answer: 42".toList) := by
  refine ⟨by decide, by decide, by decide⟩

/-- Claim C1 (amended): `extractFinalAnswerText` returns, for inputs
containing the bold token `**Final Answer:**`, the trimmed segment that
follows the first occurrence of that token (after its trailing
whitespace run) up to the first blank line followed by `**` or to the
end of the string; for all other inputs — in particular inputs carrying
only the un-bolded `Final Answer:` — it returns the full input text
unchanged. -/
theorem claim_C1 (s : List Char) :
    extractFinalAnswerText s = specBoldSegment s := by
  unfold extractFinalAnswerText specBoldSegment
  cases hsp : splitFirst boldTok s with
  | none => rfl
  | some p => simp [lazyTakeStop_eq_splitFirst]

/-! ### Claim C10 — `isDuplicateContent` (LangGraphMemoryView component) -/

/-- The memory-view entry shape (`LangGraphMemoryEntry` interface);
`context` is an attribute bag, kept as key/value string pairs. -/
structure LangGraphMemoryEntry where
  thread_id : List Char
  user_query : List Char
  response : List Char
  context : List (List Char × List Char)
  timestamp : List Char
  entry_id : List Char
deriving DecidableEq

/-- The model of `String.prototype.split(' ')`: split at every single
space character, keeping empty fragments; always returns at least one
fragment. -/
def splitSpace : List Char → List (List Char)
  | [] => [[]]
  | c :: rest =>
    if c = ' ' then [] :: splitSpace rest
    else
      match splitSpace rest with
      | [] => [[c]]
      | l :: ls => (c :: l) :: ls

/-- Translation of `isDuplicateContent` (LangGraphMemoryView, lines
159–179).  Index 0 is never a duplicate; otherwise the entry is compared
with `memoryEntries[index - 1]` only: a missing or empty previous
response (`!previousText`) yields `false`; equal lower-cased responses
yield `true`; otherwise the Jaccard similarity of the space-split word
sets must exceed 0.8 (`intersection.size / union.size > 0.8`, stated
exactly as `5·|∩| > 4·|∪|`). -/
def isDuplicateContent (memoryEntries : List LangGraphMemoryEntry)
    (entry : LangGraphMemoryEntry) (index : Nat) : Bool :=
  if index = 0 then false
  else
    let currentText := toLowerStr entry.response
    match memoryEntries.get? (index - 1) with
    | none => false
    | some prev =>
      let previousText := toLowerStr prev.response
      if previousText = [] then false
      else if currentText = previousText then true
      else
        let currentWords := (splitSpace currentText).toFinset
        let previousWords := (splitSpace previousText).toFinset
        decide (4 * (currentWords ∪ previousWords).card <
          5 * (currentWords ∩ previousWords).card)

/-- Jaccard similarity of two finite word sets, as a rational. -/
def jaccardSim (s t : Finset (List Char)) : ℚ :=
  ((s ∩ t).card : ℚ) / ((s ∪ t).card : ℚ)

/-- The amended claim C10's flagging condition, written from its words:
the preceding entry exists and has a non-empty lower-cased response, and
the two lower-cased responses are equal or their space-split word sets
have Jaccard similarity strictly above `4/5`. -/
def dupFlagSpec (memoryEntries : List LangGraphMemoryEntry)
    (entry : LangGraphMemoryEntry) (index : Nat) : Prop :=
  index ≠ 0 ∧ ∃ prev, memoryEntries.get? (index - 1) = some prev ∧
    toLowerStr prev.response ≠ [] ∧
    (toLowerStr entry.response = toLowerStr prev.response ∨
      jaccardSim (splitSpace (toLowerStr entry.response)).toFinset
        (splitSpace (toLowerStr prev.response)).toFinset > 4 / 5)

theorem splitSpace_ne_nil (l : List Char) : splitSpace l ≠ [] := by
  cases l with
  | nil => simp [splitSpace]
  | cons c rest =>
    unfold splitSpace
    by_cases hc : c = ' '
    · simp [hc]
    · rw [if_neg hc]
      cases splitSpace rest <;> simp

theorem jaccardSim_gt_iff (s t : Finset (List Char)) (hu : 0 < (s ∪ t).card) :
    jaccardSim s t > 4 / 5 ↔ 4 * (s ∪ t).card < 5 * (s ∩ t).card := by
  unfold jaccardSim
  rw [gt_iff_lt, div_lt_div_iff (by norm_num) (by exact_mod_cast hu)]
  constructor
  · intro h
    have : (4 : ℚ) * ((s ∪ t).card : ℚ) < 5 * ((s ∩ t).card : ℚ) := by
      calc (4 : ℚ) * ((s ∪ t).card : ℚ) < ((s ∩ t).card : ℚ) * 5 := h
        _ = 5 * ((s ∩ t).card : ℚ) := by ring
    exact_mod_cast this
  · intro h
    have h' : (4 : ℚ) * ((s ∪ t).card : ℚ) < 5 * ((s ∩ t).card : ℚ) := by exact_mod_cast h
    calc (4 : ℚ) * ((s ∪ t).card : ℚ) < 5 * ((s ∩ t).card : ℚ) := h'
      _ = ((s ∩ t).card : ℚ) * 5 := by ring

/-- Claim C10, counterexample.  Two consecutive entries with equal —
empty — responses: the claim says equal responses (case-insensitively)
are always flagged, but the code's `!previousText` guard returns `false`
whenever the previous response is the empty string. -/
theorem claim_C10_cex :
    (LangGraphMemoryEntry.mk [] [] [] [] [] []).response =
      (LangGraphMemoryEntry.mk [] [] [] [] [] ("e2".toList)).response ∧
    isDuplicateContent
      [LangGraphMemoryEntry.mk [] [] [] [] [] [],
        LangGraphMemoryEntry.mk [] [] [] [] [] ("e2".toList)]
      (LangGraphMemoryEntry.mk [] [] [] [] [] ("e2".toList)) 1 = false := by
  exact ⟨rfl, by decide⟩

/-- Claim C10 (amended): index 0 is never flagged; an entry at index
> 0 is flagged iff its predecessor exists, the predecessor's lower-cased
response is non-empty, and the two lower-cased responses are equal or
the Jaccard similarity of their space-split word sets strictly exceeds
0.8; and the flag consults only the immediately preceding entry. -/
theorem claim_C10 (memoryEntries : List LangGraphMemoryEntry)
    (entry : LangGraphMemoryEntry) (index : Nat) :
    (isDuplicateContent memoryEntries entry index = true ↔
      dupFlagSpec memoryEntries entry index) ∧
    (∀ others : List LangGraphMemoryEntry,
      others.get? (index - 1) = memoryEntries.get? (index - 1) →
      isDuplicateContent others entry index =
        isDuplicateContent memoryEntries entry index) := by
  constructor
  · unfold isDuplicateContent dupFlagSpec
    by_cases h0 : index = 0
    · simp [h0]
    · rw [if_neg h0]
      cases hg : memoryEntries.get? (index - 1) with
      | none => simp [h0, hg]
      | some prev =>
        simp only [h0, ne_eq, not_false_iff, true_and]
        by_cases hemp : toLowerStr prev.response = []
        · rw [if_pos hemp]
          simp [hemp]
        · rw [if_neg hemp]
          by_cases heq : toLowerStr entry.response = toLowerStr prev.response
          · rw [if_pos heq]
            simp only [true_iff]
            exact ⟨prev, rfl, hemp, Or.inl heq⟩
          · rw [if_neg heq]
            have hu : 0 < ((splitSpace (toLowerStr entry.response)).toFinset ∪
                (splitSpace (toLowerStr prev.response)).toFinset).card := by
              have hne := splitSpace_ne_nil (toLowerStr prev.response)
              obtain ⟨x, xs, hx⟩ := List.exists_cons_of_ne_nil hne
              have hxmem : x ∈ (splitSpace (toLowerStr prev.response)).toFinset := by
                rw [hx]; simp
              have : x ∈ (splitSpace (toLowerStr entry.response)).toFinset ∪
                  (splitSpace (toLowerStr prev.response)).toFinset :=
                Finset.mem_union_right _ hxmem
              exact Finset.card_pos.mpr ⟨x, this⟩
            rw [decide_eq_true_iff, ← jaccardSim_gt_iff _ _ hu]
            constructor
            · intro h
              exact ⟨prev, rfl, hemp, Or.inr h⟩
            · rintro ⟨prev', hprev', hemp', h⟩
              rw [Option.some_inj] at hprev'
              subst hprev'
              rcases h with h | h
              · exact absurd h heq
              · exact h
  · intro others hg
    unfold isDuplicateContent
    rw [hg]

/-! ### Claim C9 — the SSE read loop (App.tsx `handleSubmit`, lines 448–473) -/

/-- The model of `lines = buffer.split('\n'); buffer = lines.pop()`: the
pair of the completed lines and the remaining (newline-free) partial
line.  `TextDecoder` with `stream: true` is modelled by working at the
character level. -/
def lineSplit : List Char → List (List Char) × List Char
  | [] => ([], [])
  | c :: rest =>
    let p := lineSplit rest
    if c = '\n' then ([] :: p.1, p.2)
    else
      match p.1 with
      | [] => ([], c :: p.2)
      | l :: ls => ((c :: l) :: ls, p.2)

/-- Re-attaches a pending partial line `r` in front of the line
decomposition of a following text. -/
def glueSplit (r : List Char) (p : List (List Char) × List Char) :
    List (List Char) × List Char :=
  match p.1 with
  | [] => ([], r ++ p.2)
  | l :: ls => ((r ++ l) :: ls, p.2)

/-- The per-line handler of the loop body: a line is dispatched when it
starts with `data: ` and its remainder parses (`JSON.parse` plus the
event dispatch are abstracted as an arbitrary partial parse function;
a parse failure — the caught exception — skips the line). -/
def handleLine {J : Type} (parse : List Char → Option J) (line : List Char) :
    Option J :=
  if ("data: ".toList).isPrefixOf line then parse (line.drop 6) else none

/-- One iteration of the `while` loop for one decoded chunk: append the
chunk to the buffer, split off the completed lines, dispatch each
qualifying line in order, and keep the partial tail as the new buffer. -/
def readStep {J : Type} (parse : List Char → Option J)
    (st : List J × List Char) (chunk : List Char) : List J × List Char :=
  let p := lineSplit (st.2 ++ chunk)
  (st.1 ++ p.1.filterMap (handleLine parse), p.2)

/-- The whole read loop over a chunked byte stream, starting from an
empty buffer; returns the dispatched events and the final buffer (which
the code discards when the stream ends). -/
def readLoop {J : Type} (parse : List Char → Option J)
    (chunks : List (List Char)) : List J × List Char :=
  chunks.foldl (readStep parse) ([], [])

theorem lineSplit_rem_no_newline (l : List Char) : '\n' ∉ (lineSplit l).2 := by
  induction l with
  | nil => simp [lineSplit]
  | cons c rest ih =>
    unfold lineSplit
    by_cases hc : c = '\n'
    · simpa [hc] using ih
    · rw [if_neg hc]
      cases hls : (lineSplit rest).1 with
      | nil =>
        simp only
        intro hmem
        rcases List.mem_cons.mp hmem with h | h
        · exact hc h.symm
        · exact ih h
      | cons l ls => simpa using ih

theorem lineSplit_of_no_newline (l : List Char) (h : '\n' ∉ l) :
    lineSplit l = ([], l) := by
  induction l with
  | nil => rfl
  | cons c rest ih =>
    have hc : c ≠ '\n' := fun hh => h (hh ▸ List.mem_cons_self c rest)
    have hrest : '\n' ∉ rest := fun hh => h (List.mem_cons_of_mem c hh)
    unfold lineSplit
    rw [ih hrest, if_neg hc]

theorem lineSplit_cons (c : Char) (rest : List Char) :
    lineSplit (c :: rest) =
      (if c = '\n' then ([] :: (lineSplit rest).1, (lineSplit rest).2)
       else
         match (lineSplit rest).1 with
         | [] => ([], c :: (lineSplit rest).2)
         | l :: ls => ((c :: l) :: ls, (lineSplit rest).2)) := rfl

theorem lineSplit_fst_ne_nil_of_mem (l : List Char) (h : '\n' ∈ l) :
    (lineSplit l).1 ≠ [] := by
  induction l with
  | nil => simp at h
  | cons c rest ih =>
    rw [lineSplit_cons]
    by_cases hc : c = '\n'
    · simp [hc]
    · rw [if_neg hc]
      have hrest : '\n' ∈ rest := by
        rcases List.mem_cons.mp h with h1 | h1
        · exact absurd h1.symm hc
        · exact h1
      cases hls : (lineSplit rest).1 with
      | nil => exact absurd hls (ih hrest)
      | cons l ls => simp

theorem lineSplit_append (a b : List Char) :
    lineSplit (a ++ b) =
      ((lineSplit a).1 ++ (glueSplit (lineSplit a).2 (lineSplit b)).1,
        (glueSplit (lineSplit a).2 (lineSplit b)).2) := by
  induction a with
  | nil =>
    rcases hb : lineSplit b with ⟨bl, br⟩
    rw [List.nil_append, hb]
    cases bl with
    | nil => simp [lineSplit, glueSplit]
    | cons l ls => simp [lineSplit, glueSplit]
  | cons c a ih =>
    rcases ha : lineSplit a with ⟨al, ar⟩
    rcases hb : lineSplit b with ⟨bl, br⟩
    rw [ha, hb] at ih
    rw [List.cons_append, lineSplit_cons, ih, lineSplit_cons, ha]
    by_cases hc : c = '\n'
    · simp only [if_pos hc]
      cases bl <;> simp [glueSplit]
    · simp only [if_neg hc]
      cases al with
      | cons l ls => cases bl <;> simp [glueSplit]
      | nil =>
        cases bl with
        | nil => simp [glueSplit]
        | cons m ms => simp [glueSplit]

theorem readLoop_fold_invariant {J : Type} (parse : List Char → Option J)
    (chunks : List (List Char)) (acc : List J) (buf : List Char)
    (hbuf : '\n' ∉ buf) :
    chunks.foldl (readStep parse) (acc, buf) =
      (acc ++ (lineSplit (buf ++ chunks.flatten)).1.filterMap (handleLine parse),
        (lineSplit (buf ++ chunks.flatten)).2) := by
  induction chunks generalizing acc buf with
  | nil =>
    simp [lineSplit_of_no_newline buf hbuf]
  | cons chunk rest ih =>
    rw [List.foldl_cons]
    have hstep : readStep parse (acc, buf) chunk =
        (acc ++ (lineSplit (buf ++ chunk)).1.filterMap (handleLine parse),
          (lineSplit (buf ++ chunk)).2) := rfl
    rw [hstep, ih _ _ (lineSplit_rem_no_newline (buf ++ chunk))]
    have hrem : lineSplit ((lineSplit (buf ++ chunk)).2 ++ rest.flatten) =
        glueSplit (lineSplit (buf ++ chunk)).2 (lineSplit rest.flatten) := by
      rw [lineSplit_append, lineSplit_of_no_newline _
        (lineSplit_rem_no_newline (buf ++ chunk))]
      rcases hr : lineSplit rest.flatten with ⟨rl, rr⟩
      cases rl <;> simp [glueSplit]
    rw [List.flatten_cons, ← List.append_assoc,
      lineSplit_append (buf ++ chunk) rest.flatten, hrem]
    simp [List.filterMap_append]

theorem lineSplit_rem_nil_of_last_newline (t : List Char)
    (h : t.getLast? = some '\n') : (lineSplit t).2 = [] := by
  induction t with
  | nil => simp at h
  | cons c rest ih =>
    cases hr : rest with
    | nil =>
      rw [hr] at h
      simp only [List.getLast?_singleton, Option.some_inj] at h
      rw [lineSplit_cons, if_pos h]
      simp [lineSplit]
    | cons d ds =>
      have hlast : rest.getLast? = some '\n' := by
        rw [hr] at h ⊢
        rwa [List.getLast?_cons_cons] at h
      have ihr := ih hlast
      have hmem : '\n' ∈ rest := List.mem_of_getLast?_eq_some hlast
      rw [← hr, lineSplit_cons]
      by_cases hc : c = '\n'
      · simp [hc, ihr]
      · rw [if_neg hc]
        cases hls : (lineSplit rest).1 with
        | nil => exact absurd hls (lineSplit_fst_ne_nil_of_mem rest hmem)
        | cons l ls => simpa using ihr

/-- Claim C9: for every fixed server-sent-event text ending in a newline,
the stream-reading loop dispatches the same sequence of parsed events no
matter how the text is partitioned into chunks: the result equals the
per-line `filterMap` over the lines of the whole text — each `data: `
line whose remainder parses is dispatched exactly once, every other line
(malformed JSON included) is skipped without ending the loop — and the
final buffer is empty, so any two partitions of the same text dispatch
identically. -/
theorem claim_C9 {J : Type} (parse : List Char → Option J)
    (chunks : List (List Char))
    (h : chunks.flatten.getLast? = some '\n') :
    readLoop parse chunks =
      ((lineSplit chunks.flatten).1.filterMap (handleLine parse), []) ∧
    ∀ other : List (List Char), other.flatten = chunks.flatten →
      readLoop parse other = readLoop parse chunks := by
  have main : ∀ cs : List (List Char), cs.flatten = chunks.flatten →
      readLoop parse cs =
        ((lineSplit chunks.flatten).1.filterMap (handleLine parse), []) := by
    intro cs hcs
    unfold readLoop
    rw [readLoop_fold_invariant parse cs [] [] (by simp)]
    simp only [List.nil_append]
    rw [hcs, lineSplit_rem_nil_of_last_newline _ h]
  refine ⟨main chunks rfl, fun other ho => ?_⟩
  rw [main other ho, main chunks rfl]

/-- Sample parse function for the claim C9 witness: accepts only the
payload `7`. -/
def sampleParse (l : List Char) : Option Nat :=
  if l = "7".toList then some 7 else none

/-- Sample chunk partitions of the text `data: 7\n` for the claim C9
witness. -/
def sampleChunksA : List (List Char) := ["da".toList, "ta: 7\n".toList]

/-- One-chunk partition of the same text. -/
def sampleChunksB : List (List Char) := ["data: 7\n".toList]

theorem claim_C9_witness :
    sampleChunksA.flatten.getLast? = some '\n' ∧
    readLoop sampleParse sampleChunksA = ([7], []) ∧
    readLoop sampleParse sampleChunksB = readLoop sampleParse sampleChunksA := by
  refine ⟨by decide, ?_, ?_⟩
  · exact ((claim_C9 sampleParse sampleChunksA (by decide)).1).trans (by decide)
  · exact (claim_C9 sampleParse sampleChunksA (by decide)).2 sampleChunksB (by decide)

/-! ### Spec-modelled backend

The classifier, supervisor, finalizer, memory store and orchestrator live
in the backend (`backend/src/agent/...`), which is not part of the
frontend source tree; the definitions below are modelled from the
specification (and from the backend excerpts quoted in
FOLLOWUP_FUNCTIONALITY.md). -/

/-- The four specialist roles (spec §2). -/
inductive Role
  | domain
  | ux_ui
  | technical
  | revenue
deriving DecidableEq

/-- Classifier verdict kinds (spec §3, `query_kind`). -/
inductive QueryKind
  | general
  | domain
  | ux_ui
  | technical
  | revenue
  | debate
deriving DecidableEq

/-- The query kind named after a specialist role. -/
def Role.kind : Role → QueryKind
  | .domain => .domain
  | .ux_ui => .ux_ui
  | .technical => .technical
  | .revenue => .revenue

/-- Shortcut target of a follow-up (spec §4.1 step 6): a specialist role
or the moderator. -/
inductive ShortcutTarget
  | role (r : Role)
  | moderator
deriving DecidableEq

/-- Focus hint accompanying a query (spec §3): `general` or one of the
four roles. -/
inductive FocusHint
  | general
  | focusRole (r : Role)
deriving DecidableEq

/-- Classifier output (spec §4.1). -/
structure Verdict where
  query_kind : QueryKind
  is_followup : Bool
  shortcut_target : Option ShortcutTarget
deriving DecidableEq

/-- Abstract error kinds (spec §7). -/
inductive ErrKind
  | invalidInput
  | upstreamUnavailable
  | timeout
  | storageError
  | cancelled
  | internal
deriving DecidableEq

/-- HTTP status surfaced for each error kind (spec §6.1, §7). -/
def httpStatus : ErrKind → Nat
  | .invalidInput => 400
  | .upstreamUnavailable => 502
  | .timeout => 504
  | _ => 500

/-- Route decision recorded on an entry (spec §3):
`full_pipeline | shortcut:<role>`. -/
inductive RouteDecision
  | full_pipeline
  | shortcut (r : Role)
deriving DecidableEq

/-- A persisted conversation entry (spec §3, ConversationEntry). -/
structure ConversationEntry where
  entry_id : List Char
  thread_id : List Char
  timestamp : Nat
  user_query : List Char
  query_kind : QueryKind
  is_followup : Bool
  processing_time_ms : Nat
  specialist_outputs : List (Role × List Char)
  moderator_output : Option (List Char)
  final_answer : List Char
  route_decision : RouteDecision
deriving DecidableEq

/-- An entry as stored, together with the write-side duplicate tag the
store adds (spec §4.7, duplicate detection). -/
structure StoredEntry where
  entry : ConversationEntry
  duplicate : Bool
deriving DecidableEq

/-- Modelled from the spec: the `MemoryStore` state (spec §4.7) — the
backend store implementation is absent from the source tree.  Entries
are kept most-recent-first. -/
structure Store where
  entries : List StoredEntry
deriving DecidableEq

/-- The empty store. -/
def emptyStore : Store := ⟨[]⟩

/-- Revenue keyword set (spec §4.1 step 2). -/
def revenueKeywords : List (List Char) :=
  ["revenue".toList, "money".toList, "income".toList, "pricing".toList,
    "monetization".toList, "profit".toList, "earnings".toList]

/-- UX/UI keyword set (spec §4.1 step 2). -/
def uxKeywords : List (List Char) :=
  ["ui".toList, "ux".toList, "design".toList, "user experience".toList,
    "interface".toList, "usability".toList, "accessibility".toList]

/-- Technical keyword set (spec §4.1 step 2). -/
def technicalKeywords : List (List Char) :=
  ["technical".toList, "architecture".toList, "code".toList, "database".toList,
    "api".toList, "infrastructure".toList, "scalability".toList]

/-- Domain keyword set (spec §4.1 step 2). -/
def domainKeywords : List (List Char) :=
  ["business".toList, "domain".toList, "market".toList, "industry".toList,
    "compliance".toList, "regulation".toList]

/-- Modelled from the spec: the keyword scan of the classifier (spec
§4.1 steps 2 and 4), with the fixed tie-break order
`revenue > ux_ui > technical > domain` built in. -/
def keywordTarget (lq : List Char) : Option Role :=
  if revenueKeywords.any (fun k => containsSub k lq) then some .revenue
  else if uxKeywords.any (fun k => containsSub k lq) then some .ux_ui
  else if technicalKeywords.any (fun k => containsSub k lq) then some .technical
  else if domainKeywords.any (fun k => containsSub k lq) then some .domain
  else none

/-- Modelled from the spec: the deterministic classifier (spec §4.1,
matching `detect_followup_and_route` quoted in
FOLLOWUP_FUNCTIONALITY.md) — the backend `graph.py` is absent from the
source tree.  Empty (after trimming) queries fail with `InvalidInput`;
`is_followup := len(thread_history) > 0`; a focus hint naming a role
overrides the keyword scan; a follow-up with a target shortcuts to it,
a follow-up without one shortcuts to the moderator. -/
def classify (user_query : List Char) (thread_history : List StoredEntry)
    (focus_hint : Option FocusHint) : Except ErrKind Verdict :=
  if trimChars user_query = [] then .error .invalidInput
  else
    let isF := decide (0 < thread_history.length)
    let target : Option Role :=
      match focus_hint with
      | some (.focusRole r) => some r
      | _ => keywordTarget (toLowerStr user_query)
    let qk : QueryKind :=
      match target with
      | some r => r.kind
      | none => .general
    let st : Option ShortcutTarget :=
      if isF then
        match target with
        | some r => some (.role r)
        | none => some .moderator
      else none
    .ok ⟨qk, isF, st⟩

/-- The route decision implied by a verdict: a role shortcut target
yields `shortcut:<role>`; otherwise (no target, or the moderator-only
aggregation, which spec §9 folds into the moderator) the full pipeline
shape with a moderator pass. -/
def routeOf (v : Verdict) : RouteDecision :=
  match v.shortcut_target with
  | some (.role r) => .shortcut r
  | _ => .full_pipeline

/-- Identity of the entry under construction (spec §3 fields not
produced by the pipeline itself). -/
structure EntryMeta where
  entry_id : List Char
  thread_id : List Char
  timestamp : Nat
  user_query : List Char
  processing_time_ms : Nat
deriving DecidableEq

/-- Modelled from the spec: the finalizer (spec §4.5) — absent from the
source tree.  In shortcut mode the single specialist's text is the final
answer and no moderator output is recorded; in full mode the
`Final Answer:` segment is extracted from the moderator output (falling
back to the full text when the token is absent).  An entry is only
produced when it satisfies §8's invariants: a non-empty final answer,
and at least one specialist output in full mode. -/
def finalize (v : Verdict) (meta : EntryMeta)
    (outputs : List (Role × List Char)) (moderatorText : Option (List Char)) :
    Option ConversationEntry :=
  match routeOf v with
  | .shortcut r =>
    match outputs.find? (fun p => decide (p.1 = r)) with
    | some p =>
      if p.2 = [] then none
      else some ⟨meta.entry_id, meta.thread_id, meta.timestamp, meta.user_query,
        v.query_kind, v.is_followup, meta.processing_time_ms,
        [(r, p.2)], none, p.2, .shortcut r⟩
    | none => none
  | .full_pipeline =>
    match moderatorText with
    | some m =>
      if outputs = [] then none
      else
        let fa := claimSegmentPlain m
        if fa = [] then none
        else some ⟨meta.entry_id, meta.thread_id, meta.timestamp, meta.user_query,
          v.query_kind, v.is_followup, meta.processing_time_ms,
          outputs, some m, fa, .full_pipeline⟩
    | none => none

/-- Collapses every whitespace run to a single space; the flag records
whether the previous character was whitespace. -/
def collapseWsRun : Bool → List Char → List Char
  | _, [] => []
  | prevWs, c :: rest =>
    if isWs c then
      if prevWs then collapseWsRun true rest
      else ' ' :: collapseWsRun true rest
    else c :: collapseWsRun false rest

/-- Modelled from the spec: the normalized-response fingerprint (spec
§4.7): the lower-cased final answer with whitespace runs collapsed. -/
def normalizeFp (s : List Char) : List Char :=
  collapseWsRun false (toLowerStr s)

/-- All entries of one thread, most recent first. -/
def historyOf (st : Store) (tid : List Char) : List StoredEntry :=
  st.entries.filter (fun se => decide (se.entry.thread_id = tid))

/-- Modelled from the spec: `list(thread_id, limit)` (spec §4.7) —
most-recent-first, up to `limit`. -/
def listEntries (st : Store) (tid : List Char) (limit : Nat) : List StoredEntry :=
  (historyOf st tid).take limit

/-- Modelled from the spec: the write-side duplicate guard (spec §4.7):
does an entry with the same normalized fingerprint exist among the last
`N = 5` entries of the same thread? -/
def windowDup (st : Store) (E : ConversationEntry) : Bool :=
  (listEntries st E.thread_id 5).any
    (fun se => decide (normalizeFp se.entry.final_answer = normalizeFp E.final_answer))

/-- Modelled from the spec: `append` (spec §4.7) — idempotent on
`entry_id` (a duplicate append is ignored); otherwise the entry is
stored, tagged with the duplicate-window flag. -/
def appendEntry (st : Store) (E : ConversationEntry) : Store :=
  if st.entries.any (fun se => decide (se.entry.entry_id = E.entry_id)) then st
  else ⟨⟨E, windowDup st E⟩ :: st.entries⟩

/-- Modelled from the spec: `delete_thread` (spec §4.7), returning the
remaining store and the count of deleted entries. -/
def deleteThread (st : Store) (tid : List Char) : Store × Nat :=
  (⟨st.entries.filter (fun se => decide (¬ se.entry.thread_id = tid))⟩,
    (st.entries.filter (fun se => decide (se.entry.thread_id = tid))).length)

/-- Orchestrator event vocabulary (spec §4.6); payloads other than the
role are irrelevant to the ordering claims and omitted. -/
inductive Event
  | classification
  | supervisor_plan
  | specialist_start (r : Role)
  | specialist_result (r : Role)
  | moderator_start
  | moderator_result
  | final_answer
  | complete
deriving DecidableEq

/-- Is the event a `specialist_*` event? -/
def isSpecialistEvent : Event → Bool
  | .specialist_start _ => true
  | .specialist_result _ => true
  | _ => false

/-- Is the event a `specialist_result` event? -/
def isSpecResult : Event → Bool
  | .specialist_result _ => true
  | _ => false

/-- The four roles in dispatch order. -/
def allRoles : List Role := [.domain, .ux_ui, .technical, .revenue]

/-- Modelled from the spec: the event stream of one request (spec §4.6)
— the orchestrator is absent from the source tree.  `order` is the
completion order of the concurrently running specialists, an arbitrary
permutation of the dispatched roles; `specialist_result` events are
emitted in that order, behind the classification, and the moderator
start is gated on the barrier after all of them. -/
def emitStream (v : Verdict) (order : List Role) : List Event :=
  match v.shortcut_target with
  | some (.role r) =>
    [.classification, .specialist_start r, .specialist_result r,
      .final_answer, .complete]
  | some .moderator =>
    [.classification, .moderator_start, .moderator_result,
      .final_answer, .complete]
  | none =>
    [Event.classification, Event.supervisor_plan] ++
      (allRoles.map Event.specialist_start ++
        (order.map Event.specialist_result ++
          [Event.moderator_start, Event.moderator_result,
            Event.final_answer, Event.complete]))

/-- `P`-events strictly precede `Q`-events in the list `l`. -/
def Precedes (l : List Event) (P Q : Event → Prop) : Prop :=
  ∀ i j e f, l.get? i = some e → l.get? j = some f → P e → Q f → i < j

/-- Per-specialist texts and scheduling data the orchestrator consumes;
abstracts the analyzers' responses, the nondeterministic completion
order and the entry identity. -/
structure Oracle where
  texts : Role → List Char
  order : List Role
  moderatorText : List Char
  entry_id : List Char
  timestamp : Nat
  processing_time_ms : Nat

/-- Outcome of one transport-level request. -/
structure RequestOutcome where
  status : Nat
  err : Option ErrKind
  events : List Event
  store : Store

/-- Modelled from the spec: one request through the orchestrator (spec
§4.6, §6, §7) — absent from the source tree.  A classifier failure is
surfaced with its HTTP status, no events, and an unchanged store (no
pipeline is dispatched, nothing persisted); otherwise the pipeline runs,
the finalizer commits the entry, and the stream is emitted. -/
def runRequest (st : Store) (user_query tid : List Char)
    (focus_hint : Option FocusHint) (o : Oracle) : RequestOutcome :=
  match classify user_query (historyOf st tid) focus_hint with
  | .error e => ⟨httpStatus e, some e, [], st⟩
  | .ok v =>
    let outputs :=
      match v.shortcut_target with
      | some (.role r) => [(r, o.texts r)]
      | _ => allRoles.map (fun r => (r, o.texts r))
    let meta : EntryMeta :=
      ⟨o.entry_id, tid, o.timestamp, user_query, o.processing_time_ms⟩
    match finalize v meta outputs (some o.moderatorText) with
    | some E => ⟨200, none, emitStream v o.order, appendEntry st E⟩
    | none => ⟨500, some .internal, [], st⟩

/-! ### Helper lemmas on the model -/

theorem finalize_some_spec (v : Verdict) (meta : EntryMeta)
    (outputs : List (Role × List Char)) (moderatorText : Option (List Char))
    (E : ConversationEntry)
    (hf : finalize v meta outputs moderatorText = some E) :
    E.is_followup = v.is_followup ∧
    E.final_answer ≠ [] ∧
    (∀ r, E.route_decision = .shortcut r →
      E.specialist_outputs.map Prod.fst = [r] ∧ E.moderator_output = none) ∧
    (E.route_decision = .full_pipeline →
      E.specialist_outputs ≠ [] ∧ E.moderator_output ≠ none) := by
  unfold finalize at hf
  split at hf
  · split at hf
    · split at hf
      · cases hf
      · rename_i hnil
        cases hf
        refine ⟨rfl, hnil, ?_, ?_⟩
        · intro r' hr'
          cases hr'
          exact ⟨rfl, rfl⟩
        · intro hcontra
          cases hcontra
    · cases hf
  · split at hf
    · split at hf
      · cases hf
      · rename_i m houts
        by_cases hfa : claimSegmentPlain m = []
        · rw [hfa] at hf
          simp at hf
        · simp only [if_neg hfa] at hf
          cases hf
          refine ⟨rfl, hfa, ?_, ?_⟩
          · intro r hr
            cases hr
          · intro hmm
            exact ⟨houts, by simp⟩
    · cases hf

theorem appendEntry_entries_of_fresh (st : Store) (E : ConversationEntry)
    (hfresh : ∀ se ∈ st.entries, se.entry.entry_id ≠ E.entry_id) :
    (appendEntry st E).entries = ⟨E, windowDup st E⟩ :: st.entries := by
  have hany : st.entries.any (fun se => decide (se.entry.entry_id = E.entry_id)) = false := by
    rw [List.any_eq_false]
    intro se hse
    simp [hfresh se hse]
  unfold appendEntry
  rw [hany]
  simp

theorem classify_ok_is_followup (user_query : List Char)
    (thread_history : List StoredEntry) (focus_hint : Option FocusHint)
    (v : Verdict) (hc : classify user_query thread_history focus_hint = .ok v) :
    v.is_followup = decide (0 < thread_history.length) := by
  unfold classify at hc
  by_cases ht : trimChars user_query = []
  · rw [if_pos ht] at hc; cases hc
  · rw [if_neg ht] at hc
    cases hc
    rfl

/-! ### Claims C2, C3, C5 -/

/-- Claim C2: on a (fresh-id) append, the new entry is stored either way
at the head of the store, and its duplicate tag is true iff an entry
with the same normalized-response fingerprint (lower-cased final answer
with whitespace runs collapsed) exists in the same thread within the
last 5 entries. -/
theorem claim_C2 (st : Store) (E : ConversationEntry)
    (hfresh : ∀ se ∈ st.entries, se.entry.entry_id ≠ E.entry_id) :
    (appendEntry st E).entries = ⟨E, windowDup st E⟩ :: st.entries ∧
    (windowDup st E = true ↔ ∃ se ∈ listEntries st E.thread_id 5,
      normalizeFp se.entry.final_answer = normalizeFp E.final_answer) := by
  refine ⟨appendEntry_entries_of_fresh st E hfresh, ?_⟩
  unfold windowDup
  rw [List.any_eq_true]
  simp

/-- Concrete entry used by the model witnesses. -/
def entryS : ConversationEntry :=
  ⟨"e1".toList, "t1".toList, 1, "q".toList, .revenue, true, 5,
    [(.revenue, "ans".toList)], none, "ans".toList, .shortcut .revenue⟩

theorem claim_C2_witness :
    (appendEntry emptyStore entryS).entries =
      ⟨entryS, windowDup emptyStore entryS⟩ :: emptyStore.entries ∧
    (windowDup emptyStore entryS = true ↔ ∃ se ∈ listEntries emptyStore entryS.thread_id 5,
      normalizeFp se.entry.final_answer = normalizeFp entryS.final_answer) :=
  claim_C2 emptyStore entryS (by simp [emptyStore])

/-- Claim C3: an entry produced by classifying a query against a thread
history and finalizing the run has `is_followup = true` iff the history
already contained at least one entry at dispatch time. -/
theorem claim_C3 (user_query : List Char) (thread_history : List StoredEntry)
    (focus_hint : Option FocusHint) (v : Verdict)
    (hc : classify user_query thread_history focus_hint = .ok v)
    (meta : EntryMeta) (outputs : List (Role × List Char))
    (moderatorText : Option (List Char)) (E : ConversationEntry)
    (hf : finalize v meta outputs moderatorText = some E) :
    (E.is_followup = true ↔ thread_history ≠ []) := by
  have h1 := (finalize_some_spec v meta outputs moderatorText E hf).1
  rw [h1, classify_ok_is_followup user_query thread_history focus_hint v hc]
  simp [List.length_pos]

/-- The verdict of a shortcut-to-revenue follow-up, used by witnesses. -/
def vShort : Verdict := ⟨.revenue, true, some (.role .revenue)⟩

/-- Metadata used by the model witnesses. -/
def metaS : EntryMeta := ⟨"e1".toList, "t1".toList, 1, "q".toList, 5⟩

/-- Specialist outputs used by the model witnesses. -/
def outsS : List (Role × List Char) := [(.revenue, "ans".toList)]

/-- A one-entry history used by the model witnesses. -/
def histS : List StoredEntry := [⟨entryS, false⟩]

theorem claim_C3_witness :
    classify ("pricing".toList) histS none = .ok vShort ∧
    finalize vShort metaS outsS none = some entryS ∧
    (entryS.is_followup = true ↔ histS ≠ []) :=
  ⟨by rfl, by rfl, claim_C3 ("pricing".toList) histS none vShort (by rfl)
    metaS outsS none entryS (by rfl)⟩

/-- Claim C5: every entry the finalizer commits satisfies the §8
invariants: under `route_decision = shortcut:R` the specialist outputs
are exactly `{R}` and the moderator output is absent; under
`route_decision = full_pipeline` at least one specialist output and a
moderator output are present; and the final answer is non-empty. -/
theorem claim_C5 (v : Verdict) (meta : EntryMeta)
    (outputs : List (Role × List Char)) (moderatorText : Option (List Char))
    (E : ConversationEntry)
    (hf : finalize v meta outputs moderatorText = some E) :
    (∀ r, E.route_decision = .shortcut r →
      E.specialist_outputs.map Prod.fst = [r] ∧ E.moderator_output = none) ∧
    (E.route_decision = .full_pipeline →
      E.specialist_outputs ≠ [] ∧ E.moderator_output ≠ none) ∧
    E.final_answer ≠ [] := by
  obtain ⟨h1, h2, h3, h4⟩ := finalize_some_spec v meta outputs moderatorText E hf
  exact ⟨h3, h4, h2⟩

theorem claim_C5_witness :
    finalize vShort metaS outsS none = some entryS ∧
    ((∀ r, entryS.route_decision = .shortcut r →
      entryS.specialist_outputs.map Prod.fst = [r] ∧ entryS.moderator_output = none) ∧
    (entryS.route_decision = .full_pipeline →
      entryS.specialist_outputs ≠ [] ∧ entryS.moderator_output ≠ none) ∧
    entryS.final_answer ≠ []) :=
  ⟨by rfl, claim_C5 vShort metaS outsS none entryS (by rfl)⟩

/-! ### Claim C4 — routing of `pricing` queries -/

theorem trim_eq_nil_all_ws {q : List Char} (h : trimChars q = []) :
    ∀ c ∈ q, isWs c = true := by
  unfold trimChars at h
  have h1 : (q.dropWhile isWs).reverse.dropWhile isWs = [] := by
    rwa [List.reverse_eq_nil_iff] at h
  have h2 : ∀ c ∈ (q.dropWhile isWs).reverse, isWs c = true :=
    List.dropWhile_eq_nil_iff.mp h1
  have h3 : ∀ c ∈ q.dropWhile isWs, isWs c = true := by
    intro c hc
    exact h2 c (List.mem_reverse.mpr hc)
  intro c hc
  rw [← List.takeWhile_append_dropWhile (p := isWs) (l := q)] at hc
  rcases List.mem_append.mp hc with hm | hm
  · exact List.mem_takeWhile_imp hm
  · exact h3 c hm

theorem toLowerChar_of_ws {c : Char} (h : isWs c = true) : toLowerChar c = c := by
  unfold isWs at h
  unfold toLowerChar
  rw [if_neg]
  intro hAZ
  rcases hAZ with ⟨h1, h2⟩
  simp only [Bool.or_eq_true, decide_eq_true_eq] at h
  rcases h with (((((rfl | rfl) | rfl) | rfl) | rfl) | rfl) <;> revert h1 h2 <;> decide

theorem trim_ne_nil_of_contains_pricing {q : List Char}
    (hpr : containsSub ("pricing".toList) (toLowerStr q) = true) :
    trimChars q ≠ [] := by
  intro h
  have hall := trim_eq_nil_all_ws h
  unfold containsSub at hpr
  cases hsp : splitFirst ("pricing".toList) (toLowerStr q) with
  | none => rw [hsp] at hpr; simp at hpr
  | some p =>
    have hdec : toLowerStr q = p.1 ++ ("pricing".toList) ++ p.2 :=
      splitFirst_eq_append (by rw [hsp])
    have hp : 'p' ∈ toLowerStr q := by
      rw [hdec]
      have hmem : 'p' ∈ "pricing".toList := by decide
      exact List.mem_append.mpr (Or.inl (List.mem_append.mpr (Or.inr hmem)))
    obtain ⟨c, hc, hcp⟩ := List.mem_map.mp hp
    have hws := hall c hc
    rw [toLowerChar_of_ws hws] at hcp
    subst hcp
    revert hws
    decide

theorem keywordTarget_of_pricing {lq : List Char}
    (hpr : containsSub ("pricing".toList) lq = true) :
    keywordTarget lq = some .revenue := by
  unfold keywordTarget
  rw [if_pos]
  exact List.any_eq_true.mpr ⟨"pricing".toList, by simp [revenueKeywords], hpr⟩

/-- Claim C4: with `focus_hint` unset and a query whose lower-cased text
contains `pricing`, classification on an empty thread yields
`query_kind = revenue`, `is_followup = false` and no shortcut target
(full pipeline); on a non-empty thread it yields `is_followup = true`
and `shortcut_target = revenue`. -/
theorem claim_C4 (q : List Char) (hist : List StoredEntry)
    (hpr : containsSub ("pricing".toList) (toLowerStr q) = true) :
    (hist = [] → classify q hist none = .ok ⟨.revenue, false, none⟩) ∧
    (hist ≠ [] → classify q hist none = .ok ⟨.revenue, true, some (.role .revenue)⟩) := by
  have htrim := trim_ne_nil_of_contains_pricing hpr
  have hscan := keywordTarget_of_pricing hpr
  constructor
  · intro h0
    subst h0
    simp [classify, htrim, hscan, Role.kind]
  · intro h1
    have hlen : decide (0 < hist.length) = true :=
      decide_eq_true (List.length_pos.mpr h1)
    simp [classify, htrim, hscan, hlen, Role.kind]

theorem claim_C4_witness :
    containsSub ("pricing".toList) (toLowerStr ("pricing".toList)) = true ∧
    classify ("pricing".toList) [] none = .ok ⟨.revenue, false, none⟩ ∧
    classify ("pricing".toList) histS none = .ok ⟨.revenue, true, some (.role .revenue)⟩ :=
  ⟨by rfl, (claim_C4 ("pricing".toList) [] (by rfl)).1 rfl,
    (claim_C4 ("pricing".toList) histS (by rfl)).2 (by simp [histS])⟩

/-! ### Claim C6 — empty queries -/

/-- Claim C6: a query that is empty, or only whitespace after
normalization (trimming), fails with `InvalidInput`, surfaced as 400; no
events are emitted (no pipeline is dispatched) and the store is
unchanged (nothing is persisted). -/
theorem claim_C6 (st : Store) (q tid : List Char) (focus : Option FocusHint)
    (o : Oracle) (h : trimChars q = []) :
    runRequest st q tid focus o =
      ⟨httpStatus .invalidInput, some .invalidInput, [], st⟩ ∧
    httpStatus .invalidInput = 400 := by
  have hc : classify q (historyOf st tid) focus = .error .invalidInput := by
    unfold classify
    rw [if_pos h]
  refine ⟨?_, rfl⟩
  unfold runRequest
  rw [hc]

/-- Oracle instance for the model witnesses. -/
def sampleOracle : Oracle :=
  ⟨fun _ => "a".toList, [], "m".toList, "e9".toList, 2, 3⟩

theorem claim_C6_witness :
    trimChars ("  ".toList) = [] ∧
    runRequest emptyStore ("  ".toList) ("t1".toList) none sampleOracle =
      ⟨httpStatus .invalidInput, some .invalidInput, [], emptyStore⟩ :=
  ⟨by decide, (claim_C6 emptyStore ("  ".toList) ("t1".toList) none sampleOracle
    (by decide)).1⟩

/-! ### Claim C8 — memory round trips and ordering -/

/-- Strict most-recent-first timestamp order on stored entries. -/
def tsDesc (a b : StoredEntry) : Prop :=
  b.entry.timestamp < a.entry.timestamp

/-- A well-formed store: entries strictly decreasing by timestamp
(newest first), as produced by appends under a monotonic clock. -/
def WfStore (st : Store) : Prop :=
  st.entries.Pairwise tsDesc

/-- Claim C8: appending a fresh entry and listing its thread with limit
1 returns exactly that entry (up to the store-added duplicate tag);
appending then deleting the thread leaves the thread's listing empty for
every limit; and listings of the appended store are sorted strictly
decreasing by timestamp. -/
theorem claim_C8 (st : Store) (E : ConversationEntry) (limit : Nat)
    (hfresh : ∀ se ∈ st.entries, se.entry.entry_id ≠ E.entry_id)
    (hts : ∀ se ∈ st.entries, se.entry.timestamp < E.timestamp)
    (hwf : WfStore st) :
    (listEntries (appendEntry st E) E.thread_id 1).map (fun se => se.entry) = [E] ∧
    listEntries (deleteThread (appendEntry st E) E.thread_id).1 E.thread_id limit = [] ∧
    (listEntries (appendEntry st E) E.thread_id limit).Pairwise tsDesc := by
  have happ := appendEntry_entries_of_fresh st E hfresh
  refine ⟨?_, ?_, ?_⟩
  · unfold listEntries historyOf
    rw [happ]
    simp
  · unfold listEntries historyOf deleteThread
    have hff : ∀ l : List StoredEntry,
        (l.filter (fun se => decide (¬ se.entry.thread_id = E.thread_id))).filter
          (fun se => decide (se.entry.thread_id = E.thread_id)) = [] := by
      intro l
      induction l with
      | nil => rfl
      | cons x xs ih =>
        by_cases hx : x.entry.thread_id = E.thread_id
        · simp [hx, ih]
        · simp [hx, ih]
    rw [hff]
    simp
  · unfold listEntries historyOf
    rw [happ]
    have hcons : ((⟨E, windowDup st E⟩ : StoredEntry) :: st.entries).Pairwise tsDesc := by
      rw [List.pairwise_cons]
      exact ⟨fun b hb => hts b hb, hwf⟩
    have hfil := hcons.filter (fun se => decide (se.entry.thread_id = E.thread_id))
    exact hfil.sublist (List.take_sublist limit _)

theorem claim_C8_witness :
    (listEntries (appendEntry emptyStore entryS) entryS.thread_id 1).map
      (fun se => se.entry) = [entryS] ∧
    listEntries (deleteThread (appendEntry emptyStore entryS) entryS.thread_id).1
      entryS.thread_id 3 = [] ∧
    (listEntries (appendEntry emptyStore entryS) entryS.thread_id 3).Pairwise tsDesc :=
  claim_C8 emptyStore entryS 3 (by simp [emptyStore]) (by simp [emptyStore])
    (by simp [WfStore, emptyStore])

/-! ### Claim C7 — event-stream ordering -/

theorem precedes_split (l₁ l₂ : List Event) (P Q : Event → Prop)
    (hQ : ∀ e ∈ l₁, ¬ Q e) (hP : ∀ e ∈ l₂, ¬ P e) :
    Precedes (l₁ ++ l₂) P Q := by
  intro i j e f hi hj hpe hqf
  by_cases hil : i < l₁.length
  · by_cases hjl : j < l₁.length
    · rw [List.get?_append hjl] at hj
      exact absurd hqf (hQ f (List.get?_mem hj))
    · omega
  · push_neg at hil
    rw [List.get?_append_right hil] at hi
    exact absurd hpe (hP e (List.get?_mem hi))

theorem precedes_of_no_right (l : List Event) (P Q : Event → Prop)
    (hQ : ∀ e ∈ l, ¬ Q e) : Precedes l P Q := by
  intro i j e f hi hj hpe hqf
  exact absurd hqf (hQ f (List.get?_mem hj))

/-- Claim C7: in every request's event stream — whatever the completion
order of the concurrently running specialists — the classification event
precedes every `specialist_*` event, every `specialist_result` event
precedes `moderator_start`, and `final_answer` precedes `complete`;
moreover, in full-pipeline mode the `specialist_result` events appear
exactly in the completion order, not in a fixed role order. -/
theorem claim_C7 (v : Verdict) (order : List Role)
    (hperm : order.Perm allRoles) :
    Precedes (emitStream v order) (fun e => e = .classification)
      (fun e => isSpecialistEvent e = true) ∧
    Precedes (emitStream v order) (fun e => isSpecResult e = true)
      (fun e => e = .moderator_start) ∧
    Precedes (emitStream v order) (fun e => e = .final_answer)
      (fun e => e = .complete) ∧
    (v.shortcut_target = none →
      (emitStream v order).filter isSpecResult =
        order.map Event.specialist_result) := by
  cases hst : v.shortcut_target with
  | some t =>
    cases t with
    | role r =>
      have hl : emitStream v order =
          [.classification, .specialist_start r, .specialist_result r,
            .final_answer, .complete] := by
        unfold emitStream
        rw [hst]
      rw [hl]
      refine ⟨?_, ?_, ?_, ?_⟩
      · have hsplit : ([Event.classification, .specialist_start r,
            .specialist_result r, .final_answer, .complete] : List Event) =
            [Event.classification] ++ [.specialist_start r, .specialist_result r,
              .final_answer, .complete] := rfl
        rw [hsplit]
        apply precedes_split
        · intro e he heq
          simp at he
          subst he
          simp [isSpecialistEvent] at heq
        · intro e he heq
          subst heq
          simp at he
      · apply precedes_of_no_right
        intro e he heq
        subst heq
        simp at he
      · have hsplit : ([Event.classification, .specialist_start r,
            .specialist_result r, .final_answer, .complete] : List Event) =
            [Event.classification, .specialist_start r, .specialist_result r,
              .final_answer] ++ [Event.complete] := rfl
        rw [hsplit]
        apply precedes_split
        · intro e he heq
          subst heq
          simp at he
        · intro e he heq
          subst heq
          simp at he
      · intro hcontra
        cases hcontra
    | moderator =>
      have hl : emitStream v order =
          [.classification, .moderator_start, .moderator_result,
            .final_answer, .complete] := by
        unfold emitStream
        rw [hst]
      rw [hl]
      refine ⟨?_, ?_, ?_, ?_⟩
      · apply precedes_of_no_right
        intro e he heq
        simp at he
        rcases he with rfl | rfl | rfl | rfl | rfl <;> simp [isSpecialistEvent] at heq
      · have hsplit : ([Event.classification, .moderator_start, .moderator_result,
            .final_answer, .complete] : List Event) =
            [Event.classification] ++ [Event.moderator_start, .moderator_result,
              .final_answer, .complete] := rfl
        rw [hsplit]
        apply precedes_split
        · intro e he heq
          simp at he
          subst he
          simp at heq
        · intro e he heq
          simp [isSpecResult] at he
          rcases he with rfl | rfl | rfl | rfl <;> simp [isSpecResult] at heq
      · have hsplit : ([Event.classification, .moderator_start, .moderator_result,
            .final_answer, .complete] : List Event) =
            [Event.classification, .moderator_start, .moderator_result,
              .final_answer] ++ [Event.complete] := rfl
        rw [hsplit]
        apply precedes_split
        · intro e he heq
          subst heq
          simp at he
        · intro e he heq
          subst heq
          simp at he
      · intro hcontra
        cases hcontra
  | none =>
    have hl : emitStream v order =
        [Event.classification, Event.supervisor_plan] ++
          (allRoles.map Event.specialist_start ++
            (order.map Event.specialist_result ++
              [Event.moderator_start, Event.moderator_result,
                Event.final_answer, Event.complete])) := by
      unfold emitStream
      rw [hst]
    rw [hl]
    refine ⟨?_, ?_, ?_, ?_⟩
    · apply precedes_split
      · intro e he heq
        simp at he
        rcases he with rfl | rfl <;> simp [isSpecialistEvent] at heq
      · intro e he heq
        subst heq
        simp [allRoles] at he
    · have hassoc : ([Event.classification, Event.supervisor_plan] ++
          (allRoles.map Event.specialist_start ++
            (order.map Event.specialist_result ++
              ([Event.moderator_start, Event.moderator_result,
                Event.final_answer, Event.complete] : List Event)))) =
          ([Event.classification, Event.supervisor_plan] ++
            (allRoles.map Event.specialist_start ++
              order.map Event.specialist_result)) ++
            [Event.moderator_start, Event.moderator_result,
              Event.final_answer, Event.complete] := by
        simp [List.append_assoc]
      rw [hassoc]
      apply precedes_split
      · intro e he heq
        subst heq
        simp [allRoles] at he
      · intro e he heq
        simp at he
        rcases he with rfl | rfl | rfl | rfl <;> simp [isSpecResult] at heq
    · have hassoc : ([Event.classification, Event.supervisor_plan] ++
          (allRoles.map Event.specialist_start ++
            (order.map Event.specialist_result ++
              ([Event.moderator_start, Event.moderator_result,
                Event.final_answer, Event.complete] : List Event)))) =
          ([Event.classification, Event.supervisor_plan] ++
            (allRoles.map Event.specialist_start ++
              (order.map Event.specialist_result ++
                [Event.moderator_start, Event.moderator_result,
                  Event.final_answer]))) ++ [Event.complete] := by
        simp [List.append_assoc]
      rw [hassoc]
      apply precedes_split
      · intro e he heq
        subst heq
        simp [allRoles] at he
      · intro e he heq
        subst heq
        simp at he
    · intro hmm
      simp only [List.filter_append]
      have h1 : ([Event.classification, Event.supervisor_plan] : List Event).filter
          isSpecResult = [] := by decide
      have h2 : (allRoles.map Event.specialist_start).filter isSpecResult = [] := by
        decide
      have h3 : (order.map Event.specialist_result).filter isSpecResult =
          order.map Event.specialist_result := by
        induction order with
        | nil => rfl
        | cons r rs ih => simp [isSpecResult, ih]
      have h4 : ([Event.moderator_start, Event.moderator_result,
          Event.final_answer, Event.complete] : List Event).filter isSpecResult = [] := by
        decide
      rw [h1, h2, h3, h4]
      simp

/-- Full-pipeline verdict for the claim C7 witness. -/
def vFull : Verdict := ⟨.general, false, none⟩

/-- A completion order that differs from the dispatch order, for the
claim C7 witness. -/
def sampleOrder : List Role := [.revenue, .domain, .technical, .ux_ui]

theorem claim_C7_witness :
    sampleOrder.Perm allRoles ∧
    (Precedes (emitStream vFull sampleOrder) (fun e => e = .classification)
      (fun e => isSpecialistEvent e = true) ∧
    Precedes (emitStream vFull sampleOrder) (fun e => isSpecResult e = true)
      (fun e => e = .moderator_start) ∧
    Precedes (emitStream vFull sampleOrder) (fun e => e = .final_answer)
      (fun e => e = .complete) ∧
    (vFull.shortcut_target = none →
      (emitStream vFull sampleOrder).filter isSpecResult =
        sampleOrder.map Event.specialist_result)) :=
  ⟨by decide, claim_C7 vFull sampleOrder (by decide)⟩

/-- A pair of near-duplicate memory-view entries for the claim C10
witness. -/
def dupA : LangGraphMemoryEntry :=
  ⟨"t".toList, "q1".toList, "a b".toList, [], "ts1".toList, "id1".toList⟩

/-- Second entry, equal response up to case. -/
def dupB : LangGraphMemoryEntry :=
  ⟨"t".toList, "q2".toList, "A b".toList, [], "ts2".toList, "id2".toList⟩

theorem claim_C10_witness :
    isDuplicateContent [dupA, dupB] dupB 1 = true ↔
      dupFlagSpec [dupA, dupB] dupB 1 :=
  (claim_C10 [dupA, dupB] dupB 1).1
